import Mathlib

/-!
Verification of the text-normalization core of the repository: the slug
engine (isValidSlug, convertToSlug, generateUniqueSlug) and the name
normalizer (isValidName, normalizeName).

Strings are modelled as Lean strings over Unicode scalar values. The
JavaScript regular expressions of the source are translated into
executable character-list functions; each definition's doc comment names
the source construct it implements. Host-environment behaviour used by
the source (toLowerCase, trim, the whitespace class, NFD decomposition)
is modelled on the Basic Latin and Latin-1 fragment the library is
written for; characters outside those tables are left unchanged.
-/

namespace JsKit

/-- Lowercase ASCII letter, the regex range a-z. -/
def isLowerAlpha (c : Char) : Bool := 97 ≤ c.toNat && c.toNat ≤ 122

/-- ASCII digit, the regex range 0-9. -/
def isDigitChar (c : Char) : Bool := 48 ≤ c.toNat && c.toNat ≤ 57

/-- The class [a-z0-9] used by the slug regexes. -/
def isLowerAlnum (c : Char) : Bool := isLowerAlpha c || isDigitChar c

/-- Uppercase ASCII letter, the regex range A-Z. -/
def isUpperAlpha (c : Char) : Bool := 65 ≤ c.toNat && c.toNat ≤ 90

/-- The class [a-zA-Z0-9] used by the name regexes. -/
def isAsciiAlnum (c : Char) : Bool := isLowerAlnum c || isUpperAlpha c

/-- Character-wise model of String.prototype.toLowerCase on the Basic
Latin and Latin-1 ranges; other characters are returned unchanged. -/
def toLowerChar (c : Char) : Char :=
  if 65 ≤ c.toNat ∧ c.toNat ≤ 90 then Char.ofNat (c.toNat + 32)
  else if 192 ≤ c.toNat ∧ c.toNat ≤ 222 ∧ c.toNat ≠ 215 then Char.ofNat (c.toNat + 32)
  else c

/-- The whitespace class of JavaScript: the characters matched by the
regex escape s inside a character class and stripped by
String.prototype.trim (ASCII whitespace, no-break space, the Unicode
space and line separators, and the byte-order mark). -/
def isJsWhitespace (c : Char) : Bool :=
  (9 ≤ c.toNat && c.toNat ≤ 13) || c.toNat == 32 || c.toNat == 160 ||
  c.toNat == 5760 || (8192 ≤ c.toNat && c.toNat ≤ 8202) ||
  c.toNat == 8232 || c.toNat == 8233 || c.toNat == 8239 || c.toNat == 8287 ||
  c.toNat == 12288 || c.toNat == 65279

/-- Combining diacritical marks, the regex range U+0300 to U+036F. -/
def isCombiningMark (c : Char) : Bool := 768 ≤ c.toNat && c.toNat ≤ 879

/-- Canonical decomposition (String.prototype.normalize with NFD)
restricted to the decomposable Latin-1 letters; every other character in
scope is its own NFD form and is returned unchanged. -/
def nfdDecompose (c : Char) : List Char :=
  match c with
  | 'À' => ['A', '̀']
  | 'Á' => ['A', '́']
  | 'Â' => ['A', '̂']
  | 'Ã' => ['A', '̃']
  | 'Ä' => ['A', '̈']
  | 'Å' => ['A', '̊']
  | 'Ç' => ['C', '̧']
  | 'È' => ['E', '̀']
  | 'É' => ['E', '́']
  | 'Ê' => ['E', '̂']
  | 'Ë' => ['E', '̈']
  | 'Ì' => ['I', '̀']
  | 'Í' => ['I', '́']
  | 'Î' => ['I', '̂']
  | 'Ï' => ['I', '̈']
  | 'Ñ' => ['N', '̃']
  | 'Ò' => ['O', '̀']
  | 'Ó' => ['O', '́']
  | 'Ô' => ['O', '̂']
  | 'Õ' => ['O', '̃']
  | 'Ö' => ['O', '̈']
  | 'Ù' => ['U', '̀']
  | 'Ú' => ['U', '́']
  | 'Û' => ['U', '̂']
  | 'Ü' => ['U', '̈']
  | 'Ý' => ['Y', '́']
  | 'à' => ['a', '̀']
  | 'á' => ['a', '́']
  | 'â' => ['a', '̂']
  | 'ã' => ['a', '̃']
  | 'ä' => ['a', '̈']
  | 'å' => ['a', '̊']
  | 'ç' => ['c', '̧']
  | 'è' => ['e', '̀']
  | 'é' => ['e', '́']
  | 'ê' => ['e', '̂']
  | 'ë' => ['e', '̈']
  | 'ì' => ['i', '̀']
  | 'í' => ['i', '́']
  | 'î' => ['i', '̂']
  | 'ï' => ['i', '̈']
  | 'ñ' => ['n', '̃']
  | 'ò' => ['o', '̀']
  | 'ó' => ['o', '́']
  | 'ô' => ['o', '̂']
  | 'õ' => ['o', '̃']
  | 'ö' => ['o', '̈']
  | 'ù' => ['u', '̀']
  | 'ú' => ['u', '́']
  | 'û' => ['u', '̂']
  | 'ü' => ['u', '̈']
  | 'ý' => ['y', '́']
  | 'ÿ' => ['y', '̈']
  | _ => [c]

/-- The two composed source steps normalize NFD then
replace(combining-mark class, empty string). -/
def nfdStrip (l : List Char) : List Char :=
  (l.flatMap nfdDecompose).filter (fun c => !isCombiningMark c)

/-- Options of convertToSlug; isValidSlug reads only allowDots. -/
structure SlugOptions where
  separator : String := "-"
  allowDots : Bool := false
deriving DecidableEq

/-- Options of generateUniqueSlug. -/
structure UniqueSlugOptions where
  separator : String := "-"
deriving DecidableEq

/-- Options of isValidName and normalizeName. -/
structure NameOptions where
  allowedSpecialChars : List String := [" "]
deriving DecidableEq

/-- Deterministic matcher for the anchored regexes of the source, all of
the shape: one-or-more class-A characters, then zero-or-more groups of
(one class-S character followed by one-or-more class-A characters).
State false: the next character must start an A-run (start of input, or
just after a separator). State true: inside an A-run, where the run may
continue, a separator may follow, or the input may end. Maximal-munch is
sound for this pattern shape: any character an A-run cannot absorb must
be matched by the separator class in every parse of the regex. -/
def goMatch (isA isS : Char → Bool) : Bool → List Char → Bool
  | true, [] => true
  | false, [] => false
  | true, c :: rest =>
    if isA c then goMatch isA isS true rest
    else isS c && goMatch isA isS false rest
  | false, c :: rest => isA c && goMatch isA isS true rest

/-- Anchored match of the full input against A-plus (S A-plus)-star. -/
def matchSepPattern (isA isS : Char → Bool) (l : List Char) : Bool :=
  goMatch isA isS false l

/-- Separator class of the isValidSlug regexes: hyphen or dot when
allowDots, hyphen only otherwise. -/
def slugSepClass (allowDots : Bool) (c : Char) : Bool :=
  if allowDots then c == '-' || c == '.' else c == '-'

/-- isValidSlug from the source: the falsy guard (empty string is false),
then the regex, with dots: caret [a-z0-9]+(?:[-.][a-z0-9]+)* dollar,
without: caret [a-z0-9]+(?:-[a-z0-9]+)* dollar. -/
def isValidSlug (slug : String) (options : SlugOptions := {}) : Bool :=
  if slug = "" then false
  else matchSepPattern isLowerAlnum (slugSepClass options.allowDots) slug.toList

/-- Strips the maximal run of characters satisfying p from both ends:
the global regex (anchored-start class run) or (class run anchored-end),
and also String.prototype.trim with the whitespace class. -/
def trimEnds (p : Char → Bool) (l : List Char) : List Char :=
  ((l.dropWhile p).reverse.dropWhile p).reverse

/-- slug.replace(dot regex with flag g, separator): every literal dot
becomes one copy of the separator string. -/
def replaceDots (sep : List Char) (l : List Char) : List Char :=
  l.flatMap (fun c => if c == '.' then sep else [c])

/-- The class of whitespace or underscore. -/
def isWsOrUnderscore (c : Char) : Bool := isJsWhitespace c || c == '_'

/-- slug.replace(whitespace-or-underscore run regex, separator): every
maximal run becomes one copy of the separator, emitted at the run's
start. The state records whether the previous character was in a run. -/
def replaceWsRunsAux (sep : List Char) : Bool → List Char → List Char
  | _, [] => []
  | inRun, c :: rest =>
    if isWsOrUnderscore c then
      if inRun then replaceWsRunsAux sep true rest
      else sep ++ replaceWsRunsAux sep true rest
    else c :: replaceWsRunsAux sep false rest

/-- Entry point of the whitespace-run replacement. -/
def replaceWsRuns (sep : List Char) (l : List Char) : List Char :=
  replaceWsRunsAux sep false l

/-- Characters kept by the removal regex: the complement class of
lowercase alphanumerics, the characters of the separator string, and the
dot when allowDots (the per-character escaping of the source makes every
separator character stand for itself inside the class). -/
def keepSlugChar (options : SlugOptions) (c : Char) : Bool :=
  isLowerAlnum c || options.separator.toList.contains c ||
    (options.allowDots && c == '.')

/-- slug.replace(new RegExp(escapedSeparator followed by plus, g),
separator), the collapse of the branch without dots. After escaping, the
pattern is the separator string as a literal whose last character may
repeat; every match is replaced by one copy of the separator. Each step
consumes at least one character, so fuel = input length suffices and the
fuel-0 branch is unreachable from replaceSepRuns. An empty separator is
returned unchanged (the source would throw building the regex from an
empty string; no claim touches that configuration). -/
def replaceSepRunsAux (sep : List Char) : Nat → List Char → List Char
  | _, [] => []
  | 0, l => l
  | fuel + 1, c :: rest =>
    if !sep.isEmpty && sep == (c :: rest).take sep.length then
      sep ++ replaceSepRunsAux sep fuel
        (((c :: rest).drop sep.length).dropWhile (fun x => x == sep.getLastD ' '))
    else c :: replaceSepRunsAux sep fuel rest

/-- Entry point of the separator-run replacement. -/
def replaceSepRuns (sep : List Char) (l : List Char) : List Char :=
  replaceSepRunsAux sep l.length l

/-- slug.replace(class of separator characters and dot with plus and
flag g, match => match.includes(dot) ? dot : separator), the collapse of
the allowDots branch: each maximal run over the class collapses to a
single dot when the run contains a dot, else to one copy of the
separator. The state carries, while inside a run, whether a dot has been
seen so far. -/
def collapseSepDotAux (isC : Char → Bool) (sep : List Char) :
    Option Bool → List Char → List Char
  | none, [] => []
  | some hasDot, [] => if hasDot then ['.'] else sep
  | none, c :: rest =>
    if isC c then collapseSepDotAux isC sep (some (c == '.')) rest
    else c :: collapseSepDotAux isC sep none rest
  | some hasDot, c :: rest =>
    if isC c then collapseSepDotAux isC sep (some (hasDot || c == '.')) rest
    else (if hasDot then ['.'] else sep) ++ c :: collapseSepDotAux isC sep none rest

/-- Entry point of the dot-preferring collapse. -/
def collapseSepDot (isC : Char → Bool) (sep : List Char) (l : List Char) : List Char :=
  collapseSepDotAux isC sep none l

/-- The trim class of convertToSlug: the separator's characters, and the
dot when allowDots. -/
def sepDotClass (options : SlugOptions) (c : Char) : Bool :=
  options.separator.toList.contains c || (options.allowDots && c == '.')

/-- convertToSlug from the source, stage by stage in source order: falsy
guard; toLowerCase; trim; normalize NFD and strip combining marks; when
allowDots is false, fold every dot into the separator; replace runs of
whitespace and underscore by the separator; remove characters outside
the kept class; collapse separator runs (dot-preferring when allowDots);
trim leading and trailing separator-class characters. -/
def convertToSlug (text : String) (options : SlugOptions := {}) : String :=
  if text = "" then ""
  else
    let sep := options.separator.toList
    let s1 := text.toList.map toLowerChar
    let s2 := trimEnds isJsWhitespace s1
    let s3 := nfdStrip s2
    let s4 := if options.allowDots then s3 else replaceDots sep s3
    let s5 := replaceWsRuns sep s4
    let s6 := s5.filter (keepSlugChar options)
    let s7 := if options.allowDots then collapseSepDot (sepDotClass options) sep s6
              else replaceSepRuns sep s6
    ⟨trimEnds (sepDotClass options) s7⟩

/-- One iteration per fuel unit of the while loop of generateUniqueSlug:
the candidate is baseSlug, separator and the decimal counter; if the
candidate is taken, retry with counter + 1. Fuel
existingSlugs.length + 1 is enough because the candidates are pairwise
distinct strings (proved below), so the fuel-0 fallback is unreachable
from generateUniqueSlug. -/
def uniqueSlugLoop (baseSlug sep : String) (existingSlugs : List String) :
    Nat → Nat → String
  | 0, counter => baseSlug ++ sep ++ toString counter
  | fuel + 1, counter =>
    let uniqueSlug := baseSlug ++ sep ++ toString counter
    if existingSlugs.contains uniqueSlug then
      uniqueSlugLoop baseSlug sep existingSlugs fuel (counter + 1)
    else uniqueSlug

/-- generateUniqueSlug from the source: return baseSlug when it is not
in existingSlugs, else run the counter loop starting at 1. -/
def generateUniqueSlug (baseSlug : String) (existingSlugs : List String)
    (options : UniqueSlugOptions := {}) : String :=
  if existingSlugs.contains baseSlug then
    uniqueSlugLoop baseSlug options.separator existingSlugs (existingSlugs.length + 1) 1
  else baseSlug

/-- The characters admitted into the bracket classes built from
allowedSpecialChars: after the per-character escaping of the source, the
class is the set of all characters of all entries. -/
def specialChars (options : NameOptions) : List Char :=
  (options.allowedSpecialChars.map String.toList).flatten

/-- Membership in the built character class. An empty class (empty
allowedSpecialChars) matches no character, as the empty bracket class
does in JavaScript. -/
def isSpecialChar (options : NameOptions) (c : Char) : Bool :=
  (specialChars options).contains c

/-- isValidName from the source: the falsy guard, then the regex caret
[a-zA-Z0-9]+(?:[escapedChars][a-zA-Z0-9]+)* dollar. -/
def isValidName (name : String) (options : NameOptions := {}) : Bool :=
  if name = "" then false
  else matchSepPattern isAsciiAlnum (isSpecialChar options) name.toList

/-- normalized.replace(class run of length at least two, match =>
match[0]): every maximal run of two or more allowed special characters
collapses to its first character; since a run of one is a single
character already, every maximal run maps to its first character. The
state records whether the previous character was inside a run. -/
def collapseSpecialAux (isS : Char → Bool) : Bool → List Char → List Char
  | _, [] => []
  | inRun, c :: rest =>
    if isS c then
      if inRun then collapseSpecialAux isS true rest
      else c :: collapseSpecialAux isS true rest
    else c :: collapseSpecialAux isS false rest

/-- Entry point of the special-run collapse. -/
def collapseSpecialRuns (isS : Char → Bool) (l : List Char) : List Char :=
  collapseSpecialAux isS false l

/-- normalizeName from the source, in source order: falsy guard; trim;
remove characters neither alphanumeric nor allowed; collapse runs of
allowed special characters to their first character; trim leading and
trailing allowed special characters. -/
def normalizeName (text : String) (options : NameOptions := {}) : String :=
  if text = "" then ""
  else
    let isS := isSpecialChar options
    let n1 := trimEnds isJsWhitespace text.toList
    let n2 := n1.filter (fun c => isAsciiAlnum c || isS c)
    let n3 := collapseSpecialRuns isS n2
    ⟨trimEnds isS n3⟩

/-- No two adjacent characters both satisfy p (the no-consecutive-
separator condition of the spec, stated executably). -/
def noTwoAdjacent (p : Char → Bool) : List Char → Bool
  | [] => true
  | [_] => true
  | a :: b :: rest => !(p a && p b) && noTwoAdjacent p (b :: rest)

/-- Stated from the spec (slug validity, claims C1 and C4): non-empty,
only lowercase letters, digits and separator-class characters, begins
and ends with an alphanumeric character, and no two consecutive
separator-class characters anywhere. -/
def SlugSpec (allowDots : Bool) (s : String) : Prop :=
  s.toList ≠ [] ∧
  (∀ c ∈ s.toList, isLowerAlnum c ∨ slugSepClass allowDots c) ∧
  isLowerAlnum (s.toList.headD 'x') ∧
  isLowerAlnum (s.toList.getLastD 'x') ∧
  noTwoAdjacent (slugSepClass allowDots) s.toList

/-- Stated from the spec (claim C7): the character is a member of
allowedSpecialChars, read literally as the one-character string being an
entry of the list. -/
def memberOfAllowed (options : NameOptions) (c : Char) : Bool :=
  options.allowedSpecialChars.contains (String.mk [c])

/-- Stated from the spec (name validity, claims C7 and C10): non-empty,
begins and ends with an ASCII alphanumeric character (uppercase
permitted), every character alphanumeric or a member of
allowedSpecialChars, and no two members adjacent anywhere. -/
def NameSpec (options : NameOptions) (s : String) : Prop :=
  s.toList ≠ [] ∧
  (∀ c ∈ s.toList, isAsciiAlnum c ∨ memberOfAllowed options c) ∧
  isAsciiAlnum (s.toList.headD 'x') ∧
  isAsciiAlnum (s.toList.getLastD 'x') ∧
  noTwoAdjacent (memberOfAllowed options) s.toList

instance (allowDots : Bool) (s : String) : Decidable (SlugSpec allowDots s) := by
  unfold SlugSpec; infer_instance

instance (options : NameOptions) (s : String) : Decidable (NameSpec options s) := by
  unfold NameSpec; infer_instance

/-- Decimal value of a digit character; left inverse of Nat.digitChar on
digits, used to prove Nat.repr injective. -/
def digitVal (c : Char) : Nat := c.toNat - 48

/-- Evaluates a decimal digit string back to the number it denotes. -/
def evalDigits (l : List Char) : Nat := l.foldl (fun a c => 10 * a + digitVal c) 0

/-! ## Characterization of the anchored separator-pattern matcher -/

/-- Joint characterization of the two matcher states. In state true the
matcher accepts exactly the inputs whose characters are all in the two
classes, whose last character (if any) is in class A, and in which no
two adjacent characters are both outside class A; state false in
addition demands a non-empty input starting in class A. -/
lemma goMatch_iff (isA isS : Char → Bool) (l : List Char) :
    (goMatch isA isS true l = true ↔
      ((∀ c ∈ l, isA c = true ∨ isS c = true) ∧
       (∀ x ∈ l.getLast?, isA x = true) ∧
       List.Chain' (fun a b => isA a = true ∨ isA b = true) l)) ∧
    (goMatch isA isS false l = true ↔
      (l ≠ [] ∧ (∀ x ∈ l.head?, isA x = true) ∧
       (∀ c ∈ l, isA c = true ∨ isS c = true) ∧
       (∀ x ∈ l.getLast?, isA x = true) ∧
       List.Chain' (fun a b => isA a = true ∨ isA b = true) l)) := by
  induction l with
  | nil => simp [goMatch]
  | cons c rest ih =>
    obtain ⟨iht, ihf⟩ := ih
    rcases rest with _ | ⟨r, rs⟩
    · cases hA : isA c <;> cases hS : isS c <;> simp [goMatch, hA, hS]
    · constructor
      · cases hA : isA c
        · cases hS : isS c
          · simp [goMatch, hA, hS]
          · rw [show goMatch isA isS true (c :: r :: rs) = goMatch isA isS false (r :: rs) by
                simp [goMatch, hA, hS]]
            rw [ihf]
            simp [List.getLast?_cons_cons, List.chain'_cons, hA, hS]
            tauto
        · rw [show goMatch isA isS true (c :: r :: rs) = goMatch isA isS true (r :: rs) by
              simp [goMatch, hA]]
          rw [iht]
          simp [List.getLast?_cons_cons, List.chain'_cons, hA]
      · rw [show goMatch isA isS false (c :: r :: rs) =
            (isA c && goMatch isA isS true (r :: rs)) by simp [goMatch]]
        cases hA : isA c
        · simp [hA]
        · simp only [hA, Bool.true_and]
          rw [iht]
          simp [List.getLast?_cons_cons, List.chain'_cons, hA]

/-- The anchored regex matcher accepts exactly the non-empty strings
over the union of the classes that start and end in class A and have no
two adjacent characters outside class A. -/
lemma matchSepPattern_iff (isA isS : Char → Bool) (l : List Char) :
    matchSepPattern isA isS l = true ↔
      (l ≠ [] ∧ (∀ x ∈ l.head?, isA x = true) ∧
       (∀ c ∈ l, isA c = true ∨ isS c = true) ∧
       (∀ x ∈ l.getLast?, isA x = true) ∧
       List.Chain' (fun a b => isA a = true ∨ isA b = true) l) :=
  (goMatch_iff isA isS l).2

/-! ## Bridges between the executable spec predicates and the matcher -/

/-- The executable no-two-adjacent check agrees with Chain'. -/
lemma noTwoAdjacent_iff_chain (p : Char → Bool) :
    ∀ l : List Char, noTwoAdjacent p l = true ↔
      List.Chain' (fun a b => ¬(p a = true ∧ p b = true)) l
  | [] => by simp [noTwoAdjacent]
  | [a] => by simp [noTwoAdjacent]
  | a :: b :: rest => by
    have hrec := noTwoAdjacent_iff_chain p (b :: rest)
    have hunf : noTwoAdjacent p (a :: b :: rest) =
        (!(p a && p b) && noTwoAdjacent p (b :: rest)) := rfl
    rw [List.chain'_cons, hunf]
    cases hpa : p a <;> cases hpb : p b <;> simp [hpa, hpb, hrec]

/-- When the classes are disjoint and every character of the list is in
one of them, the matcher's adjacency condition is the spec's
no-two-consecutive-separators condition. -/
lemma chain_or_iff_noTwo (isA isS : Char → Bool)
    (hdisj : ∀ c, isS c = true → isA c = false) :
    ∀ l : List Char, (∀ c ∈ l, isA c = true ∨ isS c = true) →
      (List.Chain' (fun a b => isA a = true ∨ isA b = true) l ↔
        noTwoAdjacent isS l = true)
  | [] => by simp [noTwoAdjacent]
  | [a] => by simp [noTwoAdjacent]
  | a :: b :: rest => fun hmem => by
    have hrec := chain_or_iff_noTwo isA isS hdisj (b :: rest)
      (fun c hc => hmem c (by simp [hc]))
    have ha := hmem a (by simp)
    have hb := hmem b (by simp)
    have hunf : noTwoAdjacent isS (a :: b :: rest) =
        (!(isS a && isS b) && noTwoAdjacent isS (b :: rest)) := rfl
    rw [List.chain'_cons, hunf]
    cases hSa : isS a
    · have hAa : isA a = true := by
        rcases ha with h | h
        · exact h
        · rw [hSa] at h; exact absurd h (by simp)
      simp [hSa, hAa, hrec]
    · have hAa : isA a = false := hdisj a hSa
      cases hSb : isS b
      · have hAb : isA b = true := by
          rcases hb with h | h
          · exact h
          · rw [hSb] at h; exact absurd h (by simp)
        simp [hSa, hSb, hAb, hrec]
      · have hAb : isA b = false := hdisj b hSb
        simp [hSa, hSb, hAa, hAb]

/-- A non-empty list's optional head satisfies a predicate exactly when
its defaulted head does. -/
lemma forall_head_iff (P : Char → Prop) (l : List Char) (h : l ≠ []) :
    (∀ x ∈ l.head?, P x) ↔ P (l.headD 'x') := by
  cases l with
  | nil => exact absurd rfl h
  | cons c rest => simp

/-- A non-empty list's optional last satisfies a predicate exactly when
its defaulted last does. -/
lemma forall_getLast_iff (P : Char → Prop) (l : List Char) (h : l ≠ []) :
    (∀ x ∈ l.getLast?, P x) ↔ P (l.getLastD 'x') := by
  cases hL : l.getLast? with
  | none => exact absurd (List.getLast?_eq_none_iff.mp hL) h
  | some a =>
    rw [List.getLastD_eq_getLast?, hL]
    simp

/-- The slug separator class is disjoint from the alphanumerics. -/
lemma slugSepClass_disj (allowDots : Bool) :
    ∀ c, slugSepClass allowDots c = true → isLowerAlnum c = false := by
  intro c hc
  rcases allowDots with _ | _ <;> simp [slugSepClass] at hc
  · subst hc; decide
  · rcases hc with rfl | rfl <;> decide

/-- A string is empty exactly when its character list is. -/
lemma string_eq_empty_iff (s : String) : s = "" ↔ s.toList = [] := by
  constructor
  · rintro rfl; rfl
  · intro h; exact String.ext h

/-- isValidSlug agrees with the validity characterization the spec
states (claim C4). -/
lemma isValidSlug_iff_spec (s : String) (options : SlugOptions) :
    isValidSlug s options = true ↔ SlugSpec options.allowDots s := by
  unfold isValidSlug SlugSpec
  by_cases hs : s = ""
  · rw [if_pos hs, (string_eq_empty_iff s).mp hs]
    simp
  · have hl : s.toList ≠ [] := fun h => hs ((string_eq_empty_iff s).mpr h)
    rw [if_neg hs, matchSepPattern_iff]
    constructor
    · rintro ⟨h1, h2, h3, h4, h5⟩
      exact ⟨h1, h3, (forall_head_iff _ _ hl).mp h2, (forall_getLast_iff _ _ hl).mp h4,
        (chain_or_iff_noTwo _ _ (slugSepClass_disj options.allowDots) _ h3).mp h5⟩
    · rintro ⟨h1, h2, h3, h4, h5⟩
      exact ⟨h1, (forall_head_iff _ _ hl).mpr h3, h2, (forall_getLast_iff _ _ hl).mpr h4,
        (chain_or_iff_noTwo _ _ (slugSepClass_disj options.allowDots) _ h2).mpr h5⟩

/-- The restriction under which the name claims hold: every entry of
allowedSpecialChars is a single, non-alphanumeric character. -/
def EntriesSingleNonAlnum (options : NameOptions) : Prop :=
  ∀ e ∈ options.allowedSpecialChars,
    e.toList.length = 1 ∧ isAsciiAlnum (e.toList.headD 'x') = false

instance (options : NameOptions) : Decidable (EntriesSingleNonAlnum options) := by
  unfold EntriesSingleNonAlnum; infer_instance

/-- Under the single-character restriction, literal membership of the
one-character string coincides with the built character class. -/
lemma memberOfAllowed_eq_isSpecialChar (options : NameOptions)
    (hE : EntriesSingleNonAlnum options) :
    memberOfAllowed options = isSpecialChar options := by
  funext c
  rw [Bool.eq_iff_iff]
  unfold memberOfAllowed isSpecialChar specialChars
  simp only [List.contains, List.elem_iff, List.mem_flatten, List.mem_map]
  constructor
  · intro h
    exact ⟨(String.mk [c]).toList, ⟨String.mk [c], h, rfl⟩, by simp⟩
  · rintro ⟨lc, ⟨e, he, rfl⟩, hc⟩
    obtain ⟨h1, _⟩ := hE e he
    obtain ⟨d, hd⟩ := List.length_eq_one.mp h1
    rw [hd] at hc
    simp at hc
    subst hc
    have : e = String.mk [c] := String.ext hd
    rw [← this]
    exact he

/-- Under the single-character restriction, the built class is disjoint
from the alphanumerics. -/
lemma specialChar_disj (options : NameOptions) (hE : EntriesSingleNonAlnum options) :
    ∀ c, isSpecialChar options c = true → isAsciiAlnum c = false := by
  intro c hc
  unfold isSpecialChar specialChars at hc
  simp only [List.contains, List.elem_iff, List.mem_flatten, List.mem_map] at hc
  obtain ⟨lc, ⟨e, he, rfl⟩, hcm⟩ := hc
  obtain ⟨h1, h2⟩ := hE e he
  obtain ⟨d, hd⟩ := List.length_eq_one.mp h1
  rw [hd] at hcm h2
  simp at hcm h2
  rwa [hcm]

/-- Under the single-character restriction, isValidName agrees with the
validity characterization the spec states (claims C7 and C10). -/
lemma isValidName_iff_spec (s : String) (options : NameOptions)
    (hE : EntriesSingleNonAlnum options) :
    isValidName s options = true ↔ NameSpec options s := by
  unfold isValidName NameSpec
  rw [memberOfAllowed_eq_isSpecialChar options hE]
  by_cases hs : s = ""
  · rw [if_pos hs, (string_eq_empty_iff s).mp hs]
    simp
  · have hl : s.toList ≠ [] := fun h => hs ((string_eq_empty_iff s).mpr h)
    rw [if_neg hs, matchSepPattern_iff]
    constructor
    · rintro ⟨h1, h2, h3, h4, h5⟩
      exact ⟨h1, h3, (forall_head_iff _ _ hl).mp h2, (forall_getLast_iff _ _ hl).mp h4,
        (chain_or_iff_noTwo _ _ (specialChar_disj options hE) _ h3).mp h5⟩
    · rintro ⟨h1, h2, h3, h4, h5⟩
      exact ⟨h1, (forall_head_iff _ _ hl).mpr h3, h2, (forall_getLast_iff _ _ hl).mpr h4,
        (chain_or_iff_noTwo _ _ (specialChar_disj options hE) _ h2).mpr h5⟩

/-! ## Properties of the trim stage -/

/-- The head left by dropWhile fails the dropped predicate. -/
lemma head?_dropWhile_not (p : Char → Bool) (l : List Char) :
    ∀ x ∈ (l.dropWhile p).head?, p x = false := by
  induction l with
  | nil => simp
  | cons c rest ih =>
    cases hp : p c
    · simp [List.dropWhile_cons, hp]
    · simpa [List.dropWhile_cons, hp] using ih

/-- dropWhile is the identity when the head fails the predicate. -/
lemma dropWhile_eq_self_of_head (p : Char → Bool) (l : List Char)
    (h : ∀ x ∈ l.head?, p x = false) : l.dropWhile p = l := by
  cases l with
  | nil => rfl
  | cons c rest => simp_all [List.dropWhile_cons]

/-- Characters of the trimmed list come from the original list. -/
lemma mem_trimEnds (p : Char → Bool) (l : List Char) :
    ∀ c ∈ trimEnds p l, c ∈ l := by
  intro c hc
  unfold trimEnds at hc
  rw [List.mem_reverse] at hc
  have h1 := (List.dropWhile_suffix _).subset hc
  rw [List.mem_reverse] at h1
  exact (List.dropWhile_suffix _).subset h1

/-- Trimming preserves a symmetric adjacency invariant. -/
lemma chain'_trimEnds (R : Char → Char → Prop) (hsym : ∀ a b, R a b → R b a)
    (p : Char → Bool) (l : List Char) (h : List.Chain' R l) :
    List.Chain' R (trimEnds p l) := by
  unfold trimEnds
  have h1 : List.Chain' R (l.dropWhile p) := h.suffix (List.dropWhile_suffix p)
  have h2 : List.Chain' R (l.dropWhile p).reverse :=
    List.chain'_reverse.mpr (h1.imp fun a b hab => hsym a b hab)
  have h3 : List.Chain' R ((l.dropWhile p).reverse.dropWhile p) :=
    h2.suffix (List.dropWhile_suffix p)
  exact List.chain'_reverse.mpr (h3.imp fun a b hab => hsym a b hab)

/-- The last character left by trimming fails the trimmed predicate. -/
lemma trimEnds_getLast (p : Char → Bool) (l : List Char) :
    ∀ x ∈ (trimEnds p l).getLast?, p x = false := by
  unfold trimEnds
  intro x hx
  rw [List.getLast?_reverse] at hx
  exact head?_dropWhile_not _ _ x hx

/-- The head character left by trimming fails the trimmed predicate. -/
lemma trimEnds_head (p : Char → Bool) (l : List Char) :
    ∀ x ∈ (trimEnds p l).head?, p x = false := by
  unfold trimEnds
  intro x hx
  rw [List.head?_reverse] at hx
  have hvne : (l.dropWhile p).reverse.dropWhile p ≠ [] := by
    intro h
    rw [h] at hx
    simp at hx
  obtain ⟨pre, hpre⟩ := @List.dropWhile_suffix Char ((l.dropWhile p).reverse) p
  have hfull := List.getLast?_append_of_ne_nil pre hvne
  rw [hpre, List.getLast?_reverse] at hfull
  rw [← hfull] at hx
  exact head?_dropWhile_not _ _ x hx

/-- Trimming is the identity when both ends fail the predicate. -/
lemma trimEnds_eq_self (p : Char → Bool) (l : List Char)
    (hh : ∀ x ∈ l.head?, p x = false) (hl : ∀ x ∈ l.getLast?, p x = false) :
    trimEnds p l = l := by
  unfold trimEnds
  rw [dropWhile_eq_self_of_head p l hh,
    dropWhile_eq_self_of_head p l.reverse (by rw [List.head?_reverse]; exact hl),
    List.reverse_reverse]

/-! ## Properties of the two collapse stages and the run replacements -/

/-- Unfolding of the separator-run replacement for a one-character
separator: the general literal-plus-last-repeat pattern specializes to
collapsing runs of that character. -/
lemma replaceSepRunsAux_single_cons (s c : Char) (fuel : Nat) (rest : List Char) :
    replaceSepRunsAux [s] (fuel + 1) (c :: rest) =
      if s = c then s :: replaceSepRunsAux [s] fuel (rest.dropWhile (fun x => x == s))
      else c :: replaceSepRunsAux [s] fuel rest := by
  by_cases hsc : s = c
  · subst hsc
    simp [replaceSepRunsAux, List.dropWhile_cons]
  · have : (([s] : List Char) == [c]) = false := by
      simp only [beq_eq_false_iff_ne, ne_eq, List.cons.injEq, and_true]
      exact hsc
    simp [replaceSepRunsAux, this, hsc]

/-- At fuel zero the separator-run replacement returns its input. -/
lemma replaceSepRunsAux_zero (sep : List Char) (l : List Char) :
    replaceSepRunsAux sep 0 l = l := by
  cases l <;> rfl

/-- Characters of the one-character replacement output come from the
input or are the separator itself. -/
lemma mem_replaceSepRunsAux_single (s : Char) :
    ∀ (fuel : Nat) (l : List Char) (c : Char),
      c ∈ replaceSepRunsAux [s] fuel l → c ∈ l ∨ c = s
  | 0, l, c => by rw [replaceSepRunsAux_zero]; exact Or.inl
  | fuel + 1, [], c => by simp [replaceSepRunsAux]
  | fuel + 1, d :: rest, c => by
    rw [replaceSepRunsAux_single_cons]
    by_cases hsd : s = d
    · rw [if_pos hsd]
      intro hc
      rcases List.mem_cons.mp hc with rfl | hc
      · exact Or.inr rfl
      · rcases mem_replaceSepRunsAux_single s fuel _ c hc with hc | hc
        · exact Or.inl (List.mem_cons_of_mem d ((List.dropWhile_suffix _).subset hc))
        · exact Or.inr hc
    · rw [if_neg hsd]
      intro hc
      rcases List.mem_cons.mp hc with rfl | hc
      · exact Or.inl (List.mem_cons_self _ _)
      · rcases mem_replaceSepRunsAux_single s fuel _ c hc with hc | hc
        · exact Or.inl (List.mem_cons_of_mem d hc)
        · exact Or.inr hc

/-- The replacement output never starts with the separator unless the
input did. -/
lemma head_replaceSepRunsAux_single (s : Char) (fuel : Nat) (l : List Char)
    (h : ∀ x ∈ l.head?, x ≠ s) :
    ∀ x ∈ (replaceSepRunsAux [s] fuel l).head?, x ≠ s := by
  cases fuel with
  | zero => rw [replaceSepRunsAux_zero]; exact h
  | succ fuel =>
    cases l with
    | nil => simp [replaceSepRunsAux]
    | cons d rest =>
      rw [replaceSepRunsAux_single_cons]
      by_cases hsd : s = d
      · exact absurd hsd.symm (h d (by simp))
      · rw [if_neg hsd]
        intro x hx
        simp only [List.head?_cons, Option.mem_def, Option.some.injEq] at hx
        subst hx
        exact fun he => hsd he.symm

/-- The one-character replacement leaves no two adjacent separators. -/
lemma chain_replaceSepRunsAux_single (s : Char) :
    ∀ (fuel : Nat) (l : List Char), l.length ≤ fuel →
      List.Chain' (fun a b => ¬(a = s ∧ b = s)) (replaceSepRunsAux [s] fuel l)
  | 0, l, hlen => by
    rw [Nat.le_zero, List.length_eq_zero] at hlen
    subst hlen
    simp [replaceSepRunsAux_zero]
  | fuel + 1, [], _ => by simp [replaceSepRunsAux]
  | fuel + 1, d :: rest, hlen => by
    have hlen' : rest.length ≤ fuel := by simpa using hlen
    rw [replaceSepRunsAux_single_cons]
    by_cases hsd : s = d
    · rw [if_pos hsd]
      rw [List.chain'_cons']
      constructor
      · intro y hy
        have : y ≠ s := head_replaceSepRunsAux_single s fuel _
          (fun x hx => by
            have := head?_dropWhile_not (fun x => x == s) rest x hx
            simpa using this) y hy
        exact fun hc => this hc.2
      · exact chain_replaceSepRunsAux_single s fuel _
          (le_trans ((List.dropWhile_suffix _).length_le) hlen')
    · rw [if_neg hsd]
      rw [List.chain'_cons']
      constructor
      · intro y _
        exact fun hc => hsd hc.1.symm
      · exact chain_replaceSepRunsAux_single s fuel rest hlen'

/-- On input with no two adjacent separators the one-character
replacement is the identity. -/
lemma replaceSepRunsAux_single_id (s : Char) :
    ∀ (fuel : Nat) (l : List Char), l.length ≤ fuel →
      List.Chain' (fun a b => ¬(a = s ∧ b = s)) l →
      replaceSepRunsAux [s] fuel l = l
  | 0, l, hlen, _ => by rw [replaceSepRunsAux_zero]
  | fuel + 1, [], _, _ => by simp [replaceSepRunsAux]
  | fuel + 1, d :: rest, hlen, hchain => by
    have hlen' : rest.length ≤ fuel := by simpa using hlen
    rw [replaceSepRunsAux_single_cons]
    by_cases hsd : s = d
    · rw [if_pos hsd]
      have hhead : ∀ x ∈ rest.head?, (fun x => x == s) x = false := by
        intro x hx
        have := (List.chain'_cons'.mp hchain).1 x hx
        rw [← hsd] at this
        simp only [beq_eq_false_iff_ne, ne_eq]
        intro he
        exact this ⟨rfl, he⟩
      rw [dropWhile_eq_self_of_head _ _ hhead,
        replaceSepRunsAux_single_id s fuel rest hlen' (List.Chain'.tail hchain), hsd]
    · rw [if_neg hsd,
        replaceSepRunsAux_single_id s fuel rest hlen' (List.Chain'.tail hchain)]

/-- Characters of the dot-preferring collapse output come from the
input, are the dot, or come from the separator. -/
lemma mem_collapseSepDotAux (isC : Char → Bool) (sep : List Char) :
    ∀ (l : List Char) (st : Option Bool) (c : Char),
      c ∈ collapseSepDotAux isC sep st l → c ∈ l ∨ c = '.' ∨ c ∈ sep := by
  intro l
  induction l with
  | nil =>
    rintro (_ | hasDot) c hc
    · simp [collapseSepDotAux] at hc
    · rcases hasDot <;> simp [collapseSepDotAux] at hc <;> simp [hc]
  | cons d rest ih =>
    rintro (_ | hasDot) c hc
    · rw [collapseSepDotAux] at hc
      by_cases hd : isC d = true
      · rw [if_pos hd] at hc
        rcases ih _ c hc with h | h
        · exact Or.inl (List.mem_cons_of_mem d h)
        · exact Or.inr h
      · rw [if_neg hd] at hc
        rcases List.mem_cons.mp hc with rfl | hc
        · exact Or.inl (List.mem_cons_self _ _)
        · rcases ih _ c hc with h | h
          · exact Or.inl (List.mem_cons_of_mem d h)
          · exact Or.inr h
    · rw [collapseSepDotAux] at hc
      by_cases hd : isC d = true
      · rw [if_pos hd] at hc
        rcases ih _ c hc with h | h
        · exact Or.inl (List.mem_cons_of_mem d h)
        · exact Or.inr h
      · rw [if_neg hd] at hc
        rw [List.mem_append] at hc
        rcases hc with hc | hc
        · rcases hasDot with _ | _
          · rw [if_neg (by simp)] at hc
            exact Or.inr (Or.inr hc)
          · rw [if_pos rfl] at hc
            simp at hc
            exact Or.inr (Or.inl hc)
        · rcases List.mem_cons.mp hc with rfl | hc
          · exact Or.inl (List.mem_cons_self _ _)
          · rcases ih _ c hc with h | h
            · exact Or.inl (List.mem_cons_of_mem d h)
            · exact Or.inr h

/-- The dot-preferring collapse with a one-character separator leaves no
two adjacent class characters. -/
lemma chain_collapseSepDotAux (isC : Char → Bool) (s0 : Char) :
    ∀ (l : List Char) (st : Option Bool),
      List.Chain' (fun a b => ¬(isC a = true ∧ isC b = true))
        (collapseSepDotAux isC [s0] st l) := by
  intro l
  induction l with
  | nil =>
    rintro (_ | hasDot)
    · simp [collapseSepDotAux]
    · rcases hasDot with _ | _ <;> simp [collapseSepDotAux]
  | cons d rest ih =>
    rintro (_ | hasDot)
    · rw [collapseSepDotAux]
      by_cases hd : isC d = true
      · rw [if_pos hd]
        exact ih _
      · rw [if_neg hd]
        rw [List.chain'_cons']
        exact ⟨fun y _ hc => hd hc.1, ih _⟩
    · rw [collapseSepDotAux]
      by_cases hd : isC d = true
      · rw [if_pos hd]
        exact ih _
      · rw [if_neg hd]
        have htail : List.Chain' (fun a b => ¬(isC a = true ∧ isC b = true))
            (d :: collapseSepDotAux isC [s0] none rest) := by
          rw [List.chain'_cons']
          exact ⟨fun y _ hc => hd hc.1, ih _⟩
        rcases hasDot with _ | _
        · rw [if_neg (by simp)]
          rw [List.singleton_append, List.chain'_cons']
          exact ⟨fun y hy hc => hd (by
            simp only [List.head?_cons, Option.mem_def, Option.some.injEq] at hy
            rw [← hy] at hc
            exact hc.2), htail⟩
        · rw [if_pos rfl]
          rw [List.singleton_append, List.chain'_cons']
          exact ⟨fun y hy hc => hd (by
            simp only [List.head?_cons, Option.mem_def, Option.some.injEq] at hy
            rw [← hy] at hc
            exact hc.2), htail⟩

/-- On input with no two adjacent class characters, the dot-preferring
collapse with separator hyphen is the identity; jointly, entering a run
on a class character c0 emits c0 itself before the rest. -/
lemma collapseSepDotAux_id (isC : Char → Bool)
    (hC : ∀ c, isC c = true → c = '-' ∨ c = '.') :
    ∀ l : List Char, List.Chain' (fun a b => ¬(isC a = true ∧ isC b = true)) l →
      (collapseSepDotAux isC ['-'] none l = l ∧
       ∀ c0, isC c0 = true → (∀ x ∈ l.head?, isC x = false) →
         collapseSepDotAux isC ['-'] (some (c0 == '.')) l = c0 :: l) := by
  intro l
  induction l with
  | nil =>
    intro _
    constructor
    · rfl
    · intro c0 hc0 _
      rcases hC c0 hc0 with rfl | rfl
      · rw [show (('-' == '.') = false) from rfl]
        rfl
      · rw [show (('.' == '.') = true) from rfl]
        rfl
  | cons d rest ih =>
    intro hchain
    have ihrest := ih (List.Chain'.tail hchain)
    constructor
    · rw [collapseSepDotAux]
      by_cases hd : isC d = true
      · rw [if_pos hd]
        have hhead : ∀ x ∈ rest.head?, isC x = false := by
          intro x hx
          have := (List.chain'_cons'.mp hchain).1 x hx
          cases hx' : isC x
          · rfl
          · exact absurd ⟨hd, hx'⟩ this
        exact ihrest.2 d hd hhead
      · rw [if_neg hd, ihrest.1]
    · intro c0 hc0 hhead
      rw [collapseSepDotAux]
      have hd : isC d = false := hhead d (by simp)
      rw [if_neg (by simp [hd])]
      have : (if (c0 == '.') = true then ['.'] else ['-']) = [c0] := by
        rcases hC c0 hc0 with rfl | rfl
        · rw [show (('-' == '.') = false) from rfl]
          simp
        · rw [show (('.' == '.') = true) from rfl]
          simp
      rw [this, ihrest.1, List.singleton_append]

/-- Characters of the special-run collapse output come from the input. -/
lemma mem_collapseSpecialAux (isS : Char → Bool) :
    ∀ (l : List Char) (st : Bool) (c : Char),
      c ∈ collapseSpecialAux isS st l → c ∈ l := by
  intro l
  induction l with
  | nil => intro st c hc; simp [collapseSpecialAux] at hc
  | cons d rest ih =>
    intro st c hc
    rw [collapseSpecialAux] at hc
    by_cases hd : isS d = true
    · rw [if_pos hd] at hc
      rcases st with _ | _
      · simp only [Bool.false_eq_true, if_false] at hc
        rcases List.mem_cons.mp hc with rfl | hc
        · exact List.mem_cons_self _ _
        · exact List.mem_cons_of_mem d (ih _ c hc)
      · simp only [if_true] at hc
        exact List.mem_cons_of_mem d (ih _ c hc)
    · rw [if_neg hd] at hc
      rcases List.mem_cons.mp hc with rfl | hc
      · exact List.mem_cons_self _ _
      · exact List.mem_cons_of_mem d (ih _ c hc)

/-- The collapse output in the in-run state never starts with a special
character. -/
lemma head_collapseSpecialAux_true (isS : Char → Bool) :
    ∀ l : List Char, ∀ x ∈ (collapseSpecialAux isS true l).head?, isS x = false := by
  intro l
  induction l with
  | nil => simp [collapseSpecialAux]
  | cons d rest ih =>
    rw [collapseSpecialAux]
    by_cases hd : isS d = true
    · rw [if_pos hd]
      simpa using ih
    · rw [if_neg hd]
      intro x hx
      simp only [List.head?_cons, Option.mem_def, Option.some.injEq] at hx
      rw [← hx]
      exact Bool.not_eq_true _ ▸ hd

/-- The special-run collapse leaves no two adjacent special characters. -/
lemma chain_collapseSpecialAux (isS : Char → Bool) :
    ∀ (l : List Char) (st : Bool),
      List.Chain' (fun a b => ¬(isS a = true ∧ isS b = true))
        (collapseSpecialAux isS st l) := by
  intro l
  induction l with
  | nil => intro st; simp [collapseSpecialAux]
  | cons d rest ih =>
    intro st
    rw [collapseSpecialAux]
    by_cases hd : isS d = true
    · rw [if_pos hd]
      rcases st with _ | _
      · simp only [Bool.false_eq_true, if_false]
        rw [List.chain'_cons']
        refine ⟨fun y hy hc => ?_, ih _⟩
        have := head_collapseSpecialAux_true isS rest y hy
        rw [this] at hc
        exact absurd hc.2 (by simp)
      · simp only [if_true]
        exact ih _
    · rw [if_neg hd]
      rw [List.chain'_cons']
      exact ⟨fun y _ hc => hd hc.1, ih _⟩

/-- flatMap is the identity when every image is the singleton of its
argument. -/
lemma flatMap_id_of_singleton (f : Char → List Char) (l : List Char)
    (h : ∀ c ∈ l, f c = [c]) : l.flatMap f = l := by
  induction l with
  | nil => rfl
  | cons c rest ih =>
    rw [List.flatMap_cons, h c (List.mem_cons_self _ _),
      ih (fun d hd => h d (List.mem_cons_of_mem c hd)), List.singleton_append]

/-- The whitespace-run replacement is the identity on input without
whitespace or underscores. -/
lemma replaceWsRunsAux_id (sep : List Char) (l : List Char)
    (h : ∀ c ∈ l, isWsOrUnderscore c = false) :
    replaceWsRunsAux sep false l = l := by
  induction l with
  | nil => rfl
  | cons c rest ih =>
    rw [replaceWsRunsAux, if_neg (by simp [h c (List.mem_cons_self _ _)]),
      ih (fun d hd => h d (List.mem_cons_of_mem c hd))]

/-! ## The convertToSlug pipeline with the default separator -/

/-- An element of the optional last is an element of the list. -/
lemma mem_of_getLast? {l : List Char} {x : Char} (h : x ∈ l.getLast?) : x ∈ l := by
  induction l with
  | nil => simp at h
  | cons c rest ih =>
    cases rest with
    | nil =>
      simp at h
      simp [h]
    | cons d rest' =>
      rw [List.getLast?_cons_cons] at h
      exact List.mem_cons_of_mem c (ih h)

/-- Pipeline form of convertToSlug on non-empty input. -/
lemma convertToSlug_eq (text : String) (options : SlugOptions) (h : text ≠ "") :
    convertToSlug text options =
      ⟨trimEnds (sepDotClass options)
        (if options.allowDots then
           collapseSepDot (sepDotClass options) options.separator.toList
             ((replaceWsRuns options.separator.toList
                 (nfdStrip (trimEnds isJsWhitespace (text.toList.map toLowerChar)))).filter
               (keepSlugChar options))
         else
           replaceSepRuns options.separator.toList
             ((replaceWsRuns options.separator.toList
                 (replaceDots options.separator.toList
                   (nfdStrip (trimEnds isJsWhitespace (text.toList.map toLowerChar))))).filter
               (keepSlugChar options)))⟩ := by
  rw [convertToSlug, if_neg h]
  cases hD : options.allowDots <;> simp [hD]

/-- With the default separator the trim class of convertToSlug is the
separator class of isValidSlug. -/
lemma sepDotClass_dash (aD : Bool) :
    sepDotClass ⟨"-", aD⟩ = slugSepClass aD := by
  funext c
  have hT : ("-" : String).toList = ['-'] := rfl
  cases aD <;>
    simp [sepDotClass, slugSepClass, hT, List.contains, List.elem] <;>
    cases hcc : (c == '-') <;> simp [hcc]

/-- With the default separator the kept class of convertToSlug is the
alphanumerics plus the separator class of isValidSlug. -/
lemma keepSlugChar_dash (aD : Bool) (c : Char) :
    keepSlugChar ⟨"-", aD⟩ c = (isLowerAlnum c || slugSepClass aD c) := by
  have hT : ("-" : String).toList = ['-'] := rfl
  cases aD <;>
    simp [keepSlugChar, slugSepClass, hT, List.contains, List.elem, Bool.or_assoc] <;>
    cases hcc : (c == '-') <;> simp [hcc]

/-- The hyphen is in the separator class for both option values. -/
lemma slugSepClass_hyphen (aD : Bool) : slugSepClass aD '-' = true := by
  cases aD <;> rfl

/-- The trimmed output of a class-respecting, adjacency-respecting list
satisfies the slug validity characterization when non-empty. -/
lemma slugSpec_of_trim (aD : Bool) (s7 : List Char)
    (hmem : ∀ c ∈ s7, isLowerAlnum c = true ∨ slugSepClass aD c = true)
    (hchain : List.Chain'
      (fun a b => ¬(slugSepClass aD a = true ∧ slugSepClass aD b = true)) s7)
    (hne : trimEnds (slugSepClass aD) s7 ≠ []) :
    SlugSpec aD ⟨trimEnds (slugSepClass aD) s7⟩ := by
  have htoList : ((⟨trimEnds (slugSepClass aD) s7⟩ : String)).toList =
      trimEnds (slugSepClass aD) s7 := rfl
  unfold SlugSpec
  rw [htoList]
  refine ⟨hne, fun c hc => hmem c (mem_trimEnds _ _ c hc), ?_, ?_, ?_⟩
  · cases hT : trimEnds (slugSepClass aD) s7 with
    | nil => exact absurd hT hne
    | cons c rest =>
      have h1 : slugSepClass aD c = false :=
        trimEnds_head (slugSepClass aD) s7 c (by rw [hT]; rfl)
      have h2 := hmem c (mem_trimEnds _ _ c (by rw [hT]; exact List.mem_cons_self _ _))
      rcases h2 with h2 | h2
      · simpa using h2
      · rw [h1] at h2
        exact absurd h2 (by simp)
  · refine (forall_getLast_iff (fun x => isLowerAlnum x = true) _ hne).mp ?_
    intro x hx
    have h1 : slugSepClass aD x = false := trimEnds_getLast (slugSepClass aD) s7 x hx
    have h2 := hmem x (mem_trimEnds _ _ x (mem_of_getLast? hx))
    rcases h2 with h2 | h2
    · exact h2
    · rw [h1] at h2
      exact absurd h2 (by simp)
  · rw [noTwoAdjacent_iff_chain]
    exact chain'_trimEnds _ (fun a b hab hba => hab ⟨hba.2, hba.1⟩) _ _ hchain

/-- The output of convertToSlug with the default separator satisfies the
slug validity characterization whenever it is non-empty (the machinery
behind claims C1 and C2). -/
lemma convertToSlug_dash_spec (s : String) (aD : Bool)
    (h : convertToSlug s ⟨"-", aD⟩ ≠ "") :
    SlugSpec aD (convertToSlug s ⟨"-", aD⟩) := by
  by_cases hs : s = ""
  · rw [hs] at h
    exact absurd rfl h
  · rw [convertToSlug_eq s _ hs] at h ⊢
    have hT : (SlugOptions.mk "-" aD).separator.toList = ['-'] := rfl
    rw [show (SlugOptions.mk "-" aD).allowDots = aD from rfl, hT, sepDotClass_dash] at h ⊢
    cases aD with
    | false =>
      rw [if_neg (by simp)] at h ⊢
      set m := (replaceWsRuns ['-']
        (replaceDots ['-']
          (nfdStrip (trimEnds isJsWhitespace (s.toList.map toLowerChar))))).filter
        (keepSlugChar ⟨"-", false⟩) with hm
      apply slugSpec_of_trim
      · intro c hc
        rcases mem_replaceSepRunsAux_single '-' _ _ c hc with hc | hc
        · have := List.of_mem_filter hc
          rw [keepSlugChar_dash] at this
          exact Bool.or_eq_true _ _ ▸ this
        · exact Or.inr (hc ▸ slugSepClass_hyphen false)
      · have hch := chain_replaceSepRunsAux_single '-' m.length m (le_refl _)
        exact hch.imp (fun a b hab hc => hab ⟨by
          have := hc.1
          simpa [slugSepClass] using this, by
          have := hc.2
          simpa [slugSepClass] using this⟩)
      · intro hnil
        rw [hnil] at h
        exact h rfl
    | true =>
      rw [if_pos rfl] at h ⊢
      set m := (replaceWsRuns ['-']
        (nfdStrip (trimEnds isJsWhitespace (s.toList.map toLowerChar)))).filter
        (keepSlugChar ⟨"-", true⟩) with hm
      apply slugSpec_of_trim
      · intro c hc
        rcases mem_collapseSepDotAux (slugSepClass true) ['-'] _ _ c hc with hc | hc | hc
        · have := List.of_mem_filter hc
          rw [keepSlugChar_dash] at this
          exact Bool.or_eq_true _ _ ▸ this
        · exact Or.inr (by rw [hc]; rfl)
        · simp at hc
          exact Or.inr (hc ▸ slugSepClass_hyphen true)
      · exact chain_collapseSepDotAux (slugSepClass true) '-' m none
      · intro hnil
        rw [hnil] at h
        exact h rfl

/-! ## Fixed-point lemmas: every stage is the identity on a valid slug -/

/-- Characters below the Latin-1 letters are their own decomposition. -/
lemma nfdDecompose_ascii (c : Char) (h : c.toNat < 192) : nfdDecompose c = [c] := by
  unfold nfdDecompose
  split
  all_goals first
    | rfl
    | (subst_vars; exact absurd h (by decide))

/-- A slug-class character is a lowercase letter, a digit, the hyphen,
or the dot. -/
lemma slugChar_cases (aD : Bool) (c : Char)
    (h : isLowerAlnum c = true ∨ slugSepClass aD c = true) :
    (97 ≤ c.toNat ∧ c.toNat ≤ 122) ∨ (48 ≤ c.toNat ∧ c.toNat ≤ 57) ∨
      c = '-' ∨ c = '.' := by
  rcases h with h | h
  · simp only [isLowerAlnum, isLowerAlpha, isDigitChar, Bool.or_eq_true,
      Bool.and_eq_true, decide_eq_true_eq] at h
    tauto
  · rcases aD with _ | _ <;> simp [slugSepClass] at h
    · exact Or.inr (Or.inr (Or.inl h))
    · tauto

/-- On slug-class characters, every preparatory stage of convertToSlug
acts as the identity: lowercasing, the whitespace test, canonical
decomposition, the combining-mark test, and the whitespace-or-underscore
test. -/
lemma slugChar_facts (aD : Bool) (c : Char)
    (h : isLowerAlnum c = true ∨ slugSepClass aD c = true) :
    toLowerChar c = c ∧ isJsWhitespace c = false ∧ nfdDecompose c = [c] ∧
      isCombiningMark c = false ∧ isWsOrUnderscore c = false := by
  rcases slugChar_cases aD c h with hr | hr | rfl | rfl
  · refine ⟨?_, ?_, nfdDecompose_ascii c (by omega), ?_, ?_⟩
    · rw [toLowerChar, if_neg (by omega), if_neg (by omega)]
    · cases hb : isJsWhitespace c
      · rfl
      · exfalso
        simp only [isJsWhitespace, Bool.or_eq_true, Bool.and_eq_true,
          decide_eq_true_eq, beq_iff_eq] at hb
        omega
    · cases hb : isCombiningMark c
      · rfl
      · exfalso
        simp only [isCombiningMark, Bool.and_eq_true, decide_eq_true_eq] at hb
        omega
    · have hws : isJsWhitespace c = false := by
        cases hb : isJsWhitespace c
        · rfl
        · exfalso
          simp only [isJsWhitespace, Bool.or_eq_true, Bool.and_eq_true,
            decide_eq_true_eq, beq_iff_eq] at hb
          omega
      have hne : c ≠ '_' := by
        intro heq
        subst heq
        revert hr
        decide
      simp [isWsOrUnderscore, hws, hne]
  · refine ⟨?_, ?_, nfdDecompose_ascii c (by omega), ?_, ?_⟩
    · rw [toLowerChar, if_neg (by omega), if_neg (by omega)]
    · cases hb : isJsWhitespace c
      · rfl
      · exfalso
        simp only [isJsWhitespace, Bool.or_eq_true, Bool.and_eq_true,
          decide_eq_true_eq, beq_iff_eq] at hb
        omega
    · cases hb : isCombiningMark c
      · rfl
      · exfalso
        simp only [isCombiningMark, Bool.and_eq_true, decide_eq_true_eq] at hb
        omega
    · have hws : isJsWhitespace c = false := by
        cases hb : isJsWhitespace c
        · rfl
        · exfalso
          simp only [isJsWhitespace, Bool.or_eq_true, Bool.and_eq_true,
            decide_eq_true_eq, beq_iff_eq] at hb
          omega
      have hne : c ≠ '_' := by
        intro heq
        subst heq
        revert hr
        decide
      simp [isWsOrUnderscore, hws, hne]
  · decide
  · decide

/-- convertToSlug with the default separator is the identity on every
string satisfying the slug validity characterization. -/
lemma convertToSlug_dash_fixed (r : String) (aD : Bool) (h : SlugSpec aD r) :
    convertToSlug r ⟨"-", aD⟩ = r := by
  obtain ⟨hne, hall, hhead, hlast, hadj⟩ := h
  have hs : r ≠ "" := fun he => hne (by rw [he]; rfl)
  rw [convertToSlug_eq r _ hs]
  have hT : (SlugOptions.mk "-" aD).separator.toList = ['-'] := rfl
  rw [show (SlugOptions.mk "-" aD).allowDots = aD from rfl, hT, sepDotClass_dash]
  have h1 : r.toList.map toLowerChar = r.toList := by
    rw [List.map_congr_left (fun c hc => (slugChar_facts aD c (hall c hc)).1)]
    exact List.map_id r.toList
  rw [h1]
  have h2 : trimEnds isJsWhitespace r.toList = r.toList :=
    trimEnds_eq_self _ _
      (fun x hx =>
        (slugChar_facts aD x (hall x (List.mem_of_mem_head? hx))).2.1)
      (fun x hx =>
        (slugChar_facts aD x (hall x (mem_of_getLast? hx))).2.1)
  rw [h2]
  have h3 : nfdStrip r.toList = r.toList := by
    unfold nfdStrip
    rw [flatMap_id_of_singleton _ _
      (fun c hc => (slugChar_facts aD c (hall c hc)).2.2.1)]
    exact List.filter_eq_self.mpr
      (fun c hc => by simp [(slugChar_facts aD c (hall c hc)).2.2.2.1])
  rw [h3]
  have h5 : ∀ m : List Char, m = r.toList → replaceWsRuns ['-'] m = r.toList := by
    intro m hm
    subst hm
    exact replaceWsRunsAux_id _ _
      (fun c hc => (slugChar_facts aD c (hall c hc)).2.2.2.2)
  have h6 : r.toList.filter (keepSlugChar ⟨"-", aD⟩) = r.toList :=
    List.filter_eq_self.mpr
      (fun c hc => by
        rw [keepSlugChar_dash]
        rcases hall c hc with hc' | hc' <;> simp [hc'])
  have hchain := (noTwoAdjacent_iff_chain (slugSepClass aD) r.toList).mp hadj
  have htrim : trimEnds (slugSepClass aD) r.toList = r.toList := by
    apply trimEnds_eq_self
    · refine (forall_head_iff (fun x => slugSepClass aD x = false) _ hne).mpr ?_
      cases hb : slugSepClass aD (r.toList.headD 'x')
      · rfl
      · have := slugSepClass_disj aD _ hb
        rw [hhead] at this
        exact absurd this (by simp)
    · refine (forall_getLast_iff (fun x => slugSepClass aD x = false) _ hne).mpr ?_
      cases hb : slugSepClass aD (r.toList.getLastD 'x')
      · rfl
      · have := slugSepClass_disj aD _ hb
        rw [hlast] at this
        exact absurd this (by simp)
  cases aD with
  | false =>
    rw [if_neg (by simp)]
    have h4 : replaceDots ['-'] r.toList = r.toList := by
      unfold replaceDots
      apply flatMap_id_of_singleton
      intro c hc
      have hne' : (c == '.') = false := by
        rcases slugChar_cases false c (hall c hc) with hr | hr | rfl | hr
        · simp only [beq_eq_false_iff_ne, ne_eq]
          intro heq
          subst heq
          revert hr
          decide
        · simp only [beq_eq_false_iff_ne, ne_eq]
          intro heq
          subst heq
          revert hr
          decide
        · rfl
        · exfalso
          rcases hall c hc with hc' | hc'
          · rw [hr] at hc'
            revert hc'
            decide
          · rw [hr] at hc'
            revert hc'
            decide
      rw [hne']
      simp
    rw [h4, h5 _ rfl, h6]
    have h7 : replaceSepRuns ['-'] r.toList = r.toList := by
      unfold replaceSepRuns
      apply replaceSepRunsAux_single_id '-' _ _ (le_refl _)
      exact hchain.imp (fun a b hab hc => hab ⟨by simp [slugSepClass, hc.1],
        by simp [slugSepClass, hc.2]⟩)
    rw [h7, htrim]
    rfl
  | true =>
    rw [if_pos rfl]
    rw [h5 _ rfl, h6]
    have h7 : collapseSepDot (slugSepClass true) ['-'] r.toList = r.toList := by
      unfold collapseSepDot
      exact (collapseSepDotAux_id (slugSepClass true)
        (fun c hc => by simpa [slugSepClass] using hc) r.toList hchain).1
    rw [h7, htrim]
    rfl

/-! ## Injectivity of decimal printing and the uniqueness loop -/

/-- The digit evaluation undoes digitChar on decimal digits. -/
lemma digitVal_digitChar (d : Nat) (h : d < 10) :
    digitVal (Nat.digitChar d) = d := by
  interval_cases d <;> rfl

/-- The accumulator of toDigitsCore is appended after the digits. -/
lemma toDigitsCore_append (b : Nat) :
    ∀ (f n : Nat) (acc : List Char),
      Nat.toDigitsCore b f n acc = Nat.toDigitsCore b f n [] ++ acc := by
  intro f
  induction f with
  | zero => intro n acc; rfl
  | succ f ih =>
    intro n acc
    rw [Nat.toDigitsCore, Nat.toDigitsCore]
    by_cases hz : n / b = 0
    · simp [hz]
    · simp only [hz, if_false]
      rw [ih (n / b) (Nat.digitChar (n % b) :: acc), ih (n / b) [Nat.digitChar (n % b)],
        List.append_assoc, List.singleton_append]

/-- With sufficient fuel the digit output does not depend on the fuel. -/
lemma toDigitsCore_fuel (b : Nat) (hb : 2 ≤ b) (n : Nat) :
    ∀ (f f' : Nat), n < f → n < f' →
      Nat.toDigitsCore b f n [] = Nat.toDigitsCore b f' n [] := by
  induction n using Nat.strong_induction_on with
  | _ n ih =>
    intro f f' hf hf'
    match f, f', hf, hf' with
    | f + 1, f' + 1, hf, hf' =>
      rw [Nat.toDigitsCore, Nat.toDigitsCore]
      by_cases hz : n / b = 0
      · simp [hz]
      · simp only [hz, if_false]
        have hlt : n / b < n :=
          Nat.div_lt_self (Nat.pos_of_ne_zero (fun h0 => hz (by rw [h0]; exact Nat.zero_div b)))
            (by omega)
        rw [toDigitsCore_append b f (n / b), toDigitsCore_append b f' (n / b),
          ih (n / b) hlt f f' (by omega) (by omega)]

/-- Evaluating the decimal digit list of n gives back n. -/
lemma evalDigits_toDigits (n : Nat) : evalDigits (Nat.toDigits 10 n) = n := by
  induction n using Nat.strong_induction_on with
  | _ n ih =>
    rw [Nat.toDigits, Nat.toDigitsCore]
    by_cases hz : n / 10 = 0
    · simp only [hz, if_true]
      have hn : n % 10 = n := Nat.mod_eq_of_lt (by omega)
      rw [show evalDigits [Nat.digitChar (n % 10)] =
          digitVal (Nat.digitChar (n % 10)) from by
        simp [evalDigits, List.foldl]]
      rw [digitVal_digitChar (n % 10) (Nat.mod_lt n (by omega)), hn]
    · simp only [hz, if_false]
      have hlt : n / 10 < n :=
        Nat.div_lt_self (Nat.pos_of_ne_zero (fun h0 => hz (by rw [h0])))
          (by omega)
      rw [toDigitsCore_append 10 n (n / 10),
        toDigitsCore_fuel 10 (by omega) (n / 10) n (n / 10 + 1) (by omega) (by omega)]
      rw [show Nat.toDigitsCore 10 (n / 10 + 1) (n / 10) [] = Nat.toDigits 10 (n / 10)
          from rfl]
      rw [show evalDigits (Nat.toDigits 10 (n / 10) ++ [Nat.digitChar (n % 10)]) =
          10 * evalDigits (Nat.toDigits 10 (n / 10)) + digitVal (Nat.digitChar (n % 10))
          from by simp [evalDigits, List.foldl_append, List.foldl]]
      rw [ih (n / 10) hlt, digitVal_digitChar (n % 10) (Nat.mod_lt n (by omega))]
      omega

/-- Decimal printing of naturals is injective. -/
lemma toString_nat_injective (m n : Nat) (h : toString m = toString n) : m = n := by
  have hrepr : Nat.repr m = Nat.repr n := h
  have hdata : Nat.toDigits 10 m = Nat.toDigits 10 n := congrArg String.data hrepr
  have := congrArg evalDigits hdata
  rwa [evalDigits_toDigits, evalDigits_toDigits] at this

/-- Bool-level membership agrees with list membership. -/
lemma contains_iff {α : Type} [BEq α] [LawfulBEq α] (l : List α) (a : α) :
    l.contains a = true ↔ a ∈ l := by
  simp [List.contains, List.elem_iff]

/-- The numbered candidates of the uniqueness loop are pairwise
distinct. -/
lemma cand_injective (base sep : String) (m n : Nat)
    (h : base ++ sep ++ toString m = base ++ sep ++ toString n) : m = n := by
  have hdata := congrArg String.data h
  simp only [String.data_append] at hdata
  have h1 := List.append_cancel_left hdata
  exact toString_nat_injective m n (String.ext h1)

/-- Correctness of the counter loop: if some candidate within the fuel
is free, the loop returns the first free candidate at or above the
starting counter. -/
lemma uniqueSlugLoop_spec (base sep : String) (existing : List String) :
    ∀ (fuel counter : Nat),
      (∃ k, k < fuel ∧
        existing.contains (base ++ sep ++ toString (counter + k)) = false) →
      ∃ N, counter ≤ N ∧
        uniqueSlugLoop base sep existing fuel counter = base ++ sep ++ toString N ∧
        existing.contains (base ++ sep ++ toString N) = false ∧
        ∀ m, counter ≤ m → m < N →
          existing.contains (base ++ sep ++ toString m) = true := by
  intro fuel
  induction fuel with
  | zero =>
    rintro counter ⟨k, hk, _⟩
    exact absurd hk (by omega)
  | succ fuel ih =>
    rintro counter ⟨k, hk, hfree⟩
    rw [uniqueSlugLoop]
    by_cases hc : existing.contains (base ++ sep ++ toString counter) = true
    · rw [if_pos hc]
      have hk0 : k ≠ 0 := by
        intro h0
        rw [h0, Nat.add_zero] at hfree
        rw [hfree] at hc
        exact absurd hc (by simp)
      obtain ⟨k', rfl⟩ := Nat.exists_eq_succ_of_ne_zero hk0
      have hfree' : existing.contains (base ++ sep ++ toString (counter + 1 + k')) = false := by
        rw [show counter + 1 + k' = counter + (k' + 1) from by omega]
        exact hfree
      obtain ⟨N, hN1, hN2, hN3, hN4⟩ := ih (counter + 1) ⟨k', by omega, hfree'⟩
      refine ⟨N, by omega, hN2, hN3, ?_⟩
      intro m hm1 hm2
      rcases Nat.eq_or_lt_of_le hm1 with rfl | hm1'
      · exact hc
      · exact hN4 m (by omega) hm2
    · rw [if_neg hc]
      exact ⟨counter, le_refl _, rfl, Bool.not_eq_true _ ▸ hc,
        fun m hm1 hm2 => absurd (lt_of_le_of_lt hm1 hm2) (lt_irrefl _)⟩

/-- Pigeonhole: among the first existingSlugs.length + 1 numbered
candidates at least one is not in existingSlugs. -/
lemma exists_free_candidate (base sep : String) (existing : List String) :
    ∃ k, k < existing.length + 1 ∧
      existing.contains (base ++ sep ++ toString (1 + k)) = false := by
  by_contra hcon
  push_neg at hcon
  have hall : ∀ k, k < existing.length + 1 →
      (base ++ sep ++ toString (1 + k)) ∈ existing := by
    intro k hk
    have := hcon k hk
    rw [← contains_iff]
    cases hb : existing.contains (base ++ sep ++ toString (1 + k))
    · exact absurd hb this
    · rfl
  have hinj : Function.Injective (fun k : Nat => base ++ sep ++ toString (1 + k)) := by
    intro m n hmn
    have := cand_injective base sep (1 + m) (1 + n) hmn
    omega
  have hnd : ((List.range (existing.length + 1)).map
      (fun k => base ++ sep ++ toString (1 + k))).Nodup :=
    (List.nodup_range _).map hinj
  have hsub : ((List.range (existing.length + 1)).map
      (fun k => base ++ sep ++ toString (1 + k))) ⊆ existing := by
    intro x hx
    rw [List.mem_map] at hx
    obtain ⟨k, hk, rfl⟩ := hx
    exact hall k (List.mem_range.mp hk)
  have hlen := (hnd.subperm hsub).length_le
  simp at hlen

/-! ## The normalizeName pipeline -/

/-- Pipeline form of normalizeName on non-empty input. -/
lemma normalizeName_eq (text : String) (options : NameOptions) (h : text ≠ "") :
    normalizeName text options =
      ⟨trimEnds (isSpecialChar options)
        (collapseSpecialRuns (isSpecialChar options)
          ((trimEnds isJsWhitespace text.toList).filter
            (fun c => isAsciiAlnum c || isSpecialChar options c)))⟩ := by
  rw [normalizeName, if_neg h]

/-- The trimmed output of a class-respecting, adjacency-respecting list
satisfies the name validity characterization when non-empty. -/
lemma nameSpec_of_trim (options : NameOptions) (n3 : List Char)
    (hE : EntriesSingleNonAlnum options)
    (hmem : ∀ c ∈ n3, isAsciiAlnum c = true ∨ isSpecialChar options c = true)
    (hchain : List.Chain'
      (fun a b => ¬(isSpecialChar options a = true ∧ isSpecialChar options b = true)) n3)
    (hne : trimEnds (isSpecialChar options) n3 ≠ []) :
    NameSpec options ⟨trimEnds (isSpecialChar options) n3⟩ := by
  have htoList : ((⟨trimEnds (isSpecialChar options) n3⟩ : String)).toList =
      trimEnds (isSpecialChar options) n3 := rfl
  unfold NameSpec
  rw [htoList, memberOfAllowed_eq_isSpecialChar options hE]
  refine ⟨hne, fun c hc => hmem c (mem_trimEnds _ _ c hc), ?_, ?_, ?_⟩
  · refine (forall_head_iff (fun x => isAsciiAlnum x = true) _ hne).mp ?_
    intro x hx
    have h1 : isSpecialChar options x = false := trimEnds_head _ _ x hx
    have h2 := hmem x (mem_trimEnds _ _ x (List.mem_of_mem_head? hx))
    rcases h2 with h2 | h2
    · exact h2
    · rw [h1] at h2
      exact absurd h2 (by simp)
  · refine (forall_getLast_iff (fun x => isAsciiAlnum x = true) _ hne).mp ?_
    intro x hx
    have h1 : isSpecialChar options x = false := trimEnds_getLast _ _ x hx
    have h2 := hmem x (mem_trimEnds _ _ x (mem_of_getLast? hx))
    rcases h2 with h2 | h2
    · exact h2
    · rw [h1] at h2
      exact absurd h2 (by simp)
  · rw [noTwoAdjacent_iff_chain]
    exact chain'_trimEnds _ (fun a b hab hba => hab ⟨hba.2, hba.1⟩) _ _ hchain

/-- The output of normalizeName satisfies the name validity
characterization whenever it is non-empty and the allowed entries are
single non-alphanumeric characters (the machinery behind claim C10). -/
lemma normalizeName_spec (text : String) (options : NameOptions)
    (hE : EntriesSingleNonAlnum options)
    (h : normalizeName text options ≠ "") :
    NameSpec options (normalizeName text options) := by
  by_cases hs : text = ""
  · rw [hs] at h
    exact absurd rfl h
  · rw [normalizeName_eq text options hs] at h ⊢
    apply nameSpec_of_trim options _ hE
    · intro c hc
      have hc2 := mem_collapseSpecialAux (isSpecialChar options) _ _ c hc
      have := List.of_mem_filter hc2
      exact (Bool.or_eq_true _ _).mp this
    · exact chain_collapseSpecialAux (isSpecialChar options) _ false
    · intro hnil
      rw [hnil] at h
      exact h rfl

/-! ## The dot-preferring collapse on an explicit separator run -/

/-- Inside a run, consuming class characters accumulates whether a dot
has been seen. -/
lemma collapseSepDotAux_class_run (isC : Char → Bool) (sep : List Char) :
    ∀ (run : List Char) (hasDot : Bool) (rest : List Char),
      (∀ c ∈ run, isC c = true) →
      collapseSepDotAux isC sep (some hasDot) (run ++ rest) =
        collapseSepDotAux isC sep (some (hasDot || run.any (fun c => c == '.'))) rest := by
  intro run
  induction run with
  | nil => intro hasDot rest _; simp
  | cons c run' ih =>
    intro hasDot rest hall
    rw [List.cons_append, collapseSepDotAux,
      if_pos (hall c (List.mem_cons_self _ _)),
      ih _ rest (fun d hd => hall d (List.mem_cons_of_mem c hd))]
    simp [List.any_cons, Bool.or_assoc]

/-- Entering a non-empty run from outside collapses it to a single dot
when it contains a dot and to the separator otherwise, once a non-class
character or the end of input follows. -/
lemma collapseSepDotAux_enter_run (isC : Char → Bool) (sep : List Char)
    (run : List Char) (rest : List Char)
    (hne : run ≠ []) (hall : ∀ c ∈ run, isC c = true) :
    collapseSepDotAux isC sep none (run ++ rest) =
      collapseSepDotAux isC sep (some (run.any (fun c => c == '.'))) rest := by
  cases run with
  | nil => exact absurd rfl hne
  | cons c run' =>
    rw [List.cons_append, collapseSepDotAux,
      if_pos (hall c (List.mem_cons_self _ _)),
      collapseSepDotAux_class_run isC sep run' _ rest
        (fun d hd => hall d (List.mem_cons_of_mem c hd))]
    simp [List.any_cons]

/-- Every preparatory stage of convertToSlug with the default separator
is the identity on a list of slug-class characters. -/
lemma stages_id_of_class (aD : Bool) (L : List Char)
    (hclass : ∀ c ∈ L, isLowerAlnum c = true ∨ slugSepClass aD c = true) :
    L.map toLowerChar = L ∧ trimEnds isJsWhitespace L = L ∧ nfdStrip L = L ∧
      replaceWsRuns ['-'] L = L ∧ L.filter (keepSlugChar ⟨"-", aD⟩) = L := by
  refine ⟨?_, ?_, ?_, ?_, ?_⟩
  · rw [List.map_congr_left (fun c hc => (slugChar_facts aD c (hclass c hc)).1)]
    exact List.map_id L
  · exact trimEnds_eq_self _ _
      (fun x hx => (slugChar_facts aD x (hclass x (List.mem_of_mem_head? hx))).2.1)
      (fun x hx => (slugChar_facts aD x (hclass x (mem_of_getLast? hx))).2.1)
  · unfold nfdStrip
    rw [flatMap_id_of_singleton _ _
      (fun c hc => (slugChar_facts aD c (hclass c hc)).2.2.1)]
    exact List.filter_eq_self.mpr
      (fun c hc => by simp [(slugChar_facts aD c (hclass c hc)).2.2.2.1])
  · exact replaceWsRunsAux_id _ _
      (fun c hc => (slugChar_facts aD c (hclass c hc)).2.2.2.2)
  · exact List.filter_eq_self.mpr
      (fun c hc => by
        rw [keepSlugChar_dash]
        rcases hclass c hc with hc' | hc' <;> simp [hc'])

/-- The general dot-collapse behaviour of claim C6: a non-empty run of
separator-class characters between the words file and name collapses to
a single dot exactly when the run contains a dot, independently of the
dot's position inside the run. -/
lemma convertToSlug_dash_run (run : List Char) (hne : run ≠ [])
    (hall : ∀ c ∈ run, c = '-' ∨ c = '.') :
    convertToSlug ⟨"file".toList ++ run ++ "name".toList⟩ ⟨"-", true⟩ =
      if '.' ∈ run then "file.name" else "file-name" := by
  have hshape : ("file".toList ++ run ++ "name".toList : List Char) =
      'f' :: 'i' :: 'l' :: 'e' :: (run ++ "name".toList) := by
    simp
  have hs : (⟨"file".toList ++ run ++ "name".toList⟩ : String) ≠ "" := by
    intro hcon
    have := congrArg String.data hcon
    rw [show (⟨"file".toList ++ run ++ "name".toList⟩ : String).data =
        "file".toList ++ run ++ "name".toList from rfl, hshape] at this
    simp at this
  rw [convertToSlug_eq _ _ hs]
  have hT : (SlugOptions.mk "-" true).separator.toList = ['-'] := rfl
  rw [show (SlugOptions.mk "-" true).allowDots = true from rfl, hT, sepDotClass_dash,
    if_pos rfl]
  rw [show (⟨"file".toList ++ run ++ "name".toList⟩ : String).toList =
      'f' :: 'i' :: 'l' :: 'e' :: (run ++ "name".toList) from by
    rw [show (⟨"file".toList ++ run ++ "name".toList⟩ : String).toList =
        "file".toList ++ run ++ "name".toList from rfl, hshape]]
  have hclass : ∀ c ∈ ('f' :: 'i' :: 'l' :: 'e' :: (run ++ "name".toList) : List Char),
      isLowerAlnum c = true ∨ slugSepClass true c = true := by
    intro c hc
    simp only [List.mem_cons, List.mem_append] at hc
    rcases hc with rfl | rfl | rfl | rfl | hc | hc
    · left; decide
    · left; decide
    · left; decide
    · left; decide
    · rcases hall c hc with rfl | rfl
      · right; decide
      · right; decide
    · have : c ∈ ('n' :: 'a' :: 'm' :: 'e' :: [] : List Char) := hc
      fin_cases this <;> left <;> decide
  obtain ⟨h1, h2, h3, h5, h6⟩ := stages_id_of_class true _ hclass
  rw [h1, h2, h3, h5, h6]
  unfold collapseSepDot
  have hallC : ∀ c ∈ run, slugSepClass true c = true := by
    intro c hc
    rcases hall c hc with rfl | rfl <;> decide
  rw [show ('f' :: 'i' :: 'l' :: 'e' :: (run ++ "name".toList) : List Char) =
      'f' :: 'i' :: 'l' :: 'e' :: (run ++ ('n' :: "ame".toList)) from rfl]
  rw [collapseSepDotAux, if_neg (by decide), collapseSepDotAux, if_neg (by decide),
    collapseSepDotAux, if_neg (by decide), collapseSepDotAux, if_neg (by decide)]
  rw [collapseSepDotAux_enter_run (slugSepClass true) ['-'] run _ hne hallC]
  rw [collapseSepDotAux, if_neg (by decide)]
  by_cases hdot : '.' ∈ run
  · have hany : run.any (fun c => c == '.') = true :=
      List.any_eq_true.mpr ⟨'.', hdot, by simp⟩
    rw [hany, if_pos hdot, if_pos rfl]
    decide
  · have hany : run.any (fun c => c == '.') = false := by
      cases hb : run.any (fun c => c == '.')
      · rfl
      · obtain ⟨x, hx, hx'⟩ := List.any_eq_true.mp hb
        rw [show (x == '.') = true ↔ x = '.' from beq_iff_eq] at hx'
        exact absurd (hx' ▸ hx) hdot
    rw [hany, if_neg hdot, if_neg (by simp)]
    decide

/-! ## The claims -/

/-- Claim C1, counterexample to the unrestricted statement: with
separator A the non-empty output aAb of convertToSlug is not a valid
slug under the same options. -/
theorem claim_C1_counterexample :
    convertToSlug "a b" ⟨"A", false⟩ ≠ "" ∧
    isValidSlug (convertToSlug "a b" ⟨"A", false⟩) ⟨"A", false⟩ = false := by
  decide

/-- Claim C1, amended: with the default separator, for every string and
every allowDots value, a non-empty convertToSlug output is accepted by
isValidSlug under the same options. -/
theorem claim_C1_validity_default (s : String) (aD : Bool)
    (h : convertToSlug s ⟨"-", aD⟩ ≠ "") :
    isValidSlug (convertToSlug s ⟨"-", aD⟩) ⟨"-", aD⟩ = true := by
  rw [isValidSlug_iff_spec]
  exact convertToSlug_dash_spec s aD h

/-- Claim C1, witness: the amended theorem applied to a concrete
input. -/
theorem claim_C1_witness :
    convertToSlug "Hello World!!!" ⟨"-", false⟩ ≠ "" ∧
    isValidSlug (convertToSlug "Hello World!!!" ⟨"-", false⟩) ⟨"-", false⟩ = true :=
  ⟨by decide, claim_C1_validity_default "Hello World!!!" false (by decide)⟩

/-- Claim C2, counterexample to the unrestricted statement: with
separator A, reapplying convertToSlug lowercases the separator, so the
transform is not idempotent. -/
theorem claim_C2_counterexample :
    convertToSlug (convertToSlug "b c" ⟨"A", false⟩) ⟨"A", false⟩ ≠
      convertToSlug "b c" ⟨"A", false⟩ := by
  decide

/-- Claim C2, amended: convertToSlug is idempotent for every string and
every allowDots value when the separator is the default hyphen. -/
theorem claim_C2_idempotent_default (s : String) (aD : Bool) :
    convertToSlug (convertToSlug s ⟨"-", aD⟩) ⟨"-", aD⟩ = convertToSlug s ⟨"-", aD⟩ := by
  by_cases h : convertToSlug s ⟨"-", aD⟩ = ""
  · rw [h]
    rfl
  · exact convertToSlug_dash_fixed _ aD (convertToSlug_dash_spec s aD h)

/-- Claim C3: generateUniqueSlug returns baseSlug itself when it is not
taken; otherwise it returns baseSlug, separator and the smallest
positive counter whose composed string is free; in all cases the result
is not in existingSlugs. -/
theorem claim_C3_generateUniqueSlug (baseSlug : String) (existingSlugs : List String)
    (sep : String) :
    generateUniqueSlug baseSlug existingSlugs ⟨sep⟩ ∉ existingSlugs ∧
    (baseSlug ∉ existingSlugs → generateUniqueSlug baseSlug existingSlugs ⟨sep⟩ = baseSlug) ∧
    (baseSlug ∈ existingSlugs → ∃ N, 1 ≤ N ∧
      generateUniqueSlug baseSlug existingSlugs ⟨sep⟩ = baseSlug ++ sep ++ toString N ∧
      ∀ m, 1 ≤ m → m < N → (baseSlug ++ sep ++ toString m) ∈ existingSlugs) := by
  unfold generateUniqueSlug
  by_cases hb : existingSlugs.contains baseSlug = true
  · rw [if_pos hb]
    obtain ⟨k, hk, hfree⟩ := exists_free_candidate baseSlug sep existingSlugs
    obtain ⟨N, hN1, hN2, hN3, hN4⟩ := uniqueSlugLoop_spec baseSlug sep existingSlugs
      (existingSlugs.length + 1) 1 ⟨k, hk, hfree⟩
    refine ⟨?_, ?_, ?_⟩
    · rw [hN2]
      intro hmem
      have h' := (contains_iff _ _).mpr hmem
      rw [h'] at hN3
      exact absurd hN3 (by simp)
    · intro hnb
      exact absurd ((contains_iff _ _).mp hb) hnb
    · intro _
      exact ⟨N, hN1, hN2, fun m hm1 hm2 => (contains_iff _ _).mp (hN4 m hm1 hm2)⟩
  · rw [if_neg hb]
    have hnb : baseSlug ∉ existingSlugs := fun hm => hb ((contains_iff _ _).mpr hm)
    exact ⟨hnb, fun _ => rfl, fun hm => absurd hm hnb⟩

/-- Claim C4: isValidSlug accepts exactly the candidates satisfying the
spec's characterization — non-empty, over lowercase alphanumerics and
the separator class (hyphen, plus dot when allowDots), alphanumeric at
both ends, and with no two consecutive separator-class characters. -/
theorem claim_C4_isValidSlug_characterization (candidate : String)
    (options : SlugOptions) :
    isValidSlug candidate options = true ↔ SlugSpec options.allowDots candidate :=
  isValidSlug_iff_spec candidate options

/-- Claim C5: the documented end-to-end examples of convertToSlug with
default options — punctuation stripping, case normalization, and
diacritic folding. -/
theorem claim_C5_convertToSlug_examples :
    convertToSlug "Hello World!!!" {} = "hello-world" ∧
    convertToSlug "HELLO" {} = "hello" ∧
    convertToSlug "Café & Restaurant" {} = "cafe-restaurant" := by
  decide

/-- Claim C6: with allowDots, a run of separator-class characters
between file and name collapses to a single dot exactly when it
contains a dot, wherever the dot sits in the run; in particular both
documented examples hold. -/
theorem claim_C6_dot_collapse :
    (∀ run : List Char, run ≠ [] → (∀ c ∈ run, c = '-' ∨ c = '.') →
      convertToSlug ⟨"file".toList ++ run ++ "name".toList⟩ ⟨"-", true⟩ =
        if '.' ∈ run then "file.name" else "file-name") ∧
    convertToSlug "file.-name" ⟨"-", true⟩ = "file.name" ∧
    convertToSlug "file-.name" ⟨"-", true⟩ = "file.name" :=
  ⟨convertToSlug_dash_run, by decide, by decide⟩

/-- Claim C7, counterexample to the unrestricted statement: with the
alphanumeric entry a, the string aa is accepted by isValidName although
it has two adjacent members of allowedSpecialChars. -/
theorem claim_C7_counterexample :
    ¬(isValidName "aa" ⟨["a"]⟩ = true ↔ NameSpec ⟨["a"]⟩ "aa") := by
  decide

/-- Claim C7, amended: when every allowedSpecialChars entry is a single
non-alphanumeric character, isValidName accepts exactly the candidates
satisfying the spec's characterization. -/
theorem claim_C7_isValidName_characterization (candidate : String)
    (options : NameOptions) (hE : EntriesSingleNonAlnum options) :
    isValidName candidate options = true ↔ NameSpec options candidate :=
  isValidName_iff_spec candidate options hE

/-- Claim C7, witness: the amended theorem at the default options,
together with the documented examples. -/
theorem claim_C7_witness :
    EntriesSingleNonAlnum ⟨[" "]⟩ ∧
    isValidName "John  Doe" ⟨[" "]⟩ = false ∧
    isValidName "John Doe" ⟨[" "]⟩ = true ∧
    (isValidName "John Doe" ⟨[" "]⟩ = true ↔ NameSpec ⟨[" "]⟩ "John Doe") :=
  ⟨by decide, by decide, by decide,
    claim_C7_isValidName_characterization "John Doe" ⟨[" "]⟩ (by decide)⟩

/-- Claim C8: normalizeName trims, removes invalid characters, collapses
runs of allowed special characters to the first character of the run,
and trims special characters from the ends — the documented example,
and a mixed-run example showing the first-character policy. -/
theorem claim_C8_normalizeName_examples :
    normalizeName "  John   Doe  " {} = "John Doe" ∧
    normalizeName "A.-B" ⟨[".", "-"]⟩ = "A.B" := by
  decide

/-- Claim C9: on the empty string every predicate returns false and
every transform returns the empty string, for all option values; the
embedded functions are total, so no invocation raises an exception. -/
theorem claim_C9_empty_input (o1 o2 : SlugOptions) (o3 o4 : NameOptions) :
    isValidSlug "" o1 = false ∧ convertToSlug "" o2 = "" ∧
    isValidName "" o3 = false ∧ normalizeName "" o4 = "" :=
  ⟨rfl, rfl, rfl, rfl⟩

/-- Claim C10: with single non-alphanumeric allowedSpecialChars entries,
a non-empty normalizeName output is accepted by isValidName under the
same options. -/
theorem claim_C10_normalizeName_validity (text : String) (options : NameOptions)
    (hE : EntriesSingleNonAlnum options)
    (h : normalizeName text options ≠ "") :
    isValidName (normalizeName text options) options = true := by
  rw [isValidName_iff_spec _ _ hE]
  exact normalizeName_spec text options hE h

/-- Claim C10, witness: the theorem applied to a concrete input at the
default options. -/
theorem claim_C10_witness :
    EntriesSingleNonAlnum ⟨[" "]⟩ ∧
    normalizeName "  John   Doe  " ⟨[" "]⟩ ≠ "" ∧
    isValidName (normalizeName "  John   Doe  " ⟨[" "]⟩) ⟨[" "]⟩ = true :=
  ⟨by decide, by decide,
    claim_C10_normalizeName_validity "  John   Doe  " ⟨[" "]⟩ (by decide) (by decide)⟩

end JsKit
